import Mathlib

/-!
Verification development for the relay agent-log normalization pipeline.

The definitions below are a shallow embedding of the TypeScript sources:
  * the line-oriented parser `parseVictoriaLog` (packages/log-parser parser module),
  * `validateParsedRun` and `enrichParsedRun` (packages/log-parser/src/validation.ts),
  * `buildCausalityChain`, `parseJsonLog`, `parseJsonLogRaw`
    (packages/log-parser/src/formatter.ts and the JSON ingestion module).

JavaScript platform builtins (JSON.parse, Date) are not code of this repository;
they are passed in as explicit function parameters so that every theorem
quantifies over their behavior.  Strings are Lean `String`s, machine numbers are
`Nat`, optional fields are `Option`, and JavaScript truthiness of optional
string fields is modelled explicitly (`optTruthy`).
-/

/-- `Role` from types.ts: `"user" | "assistant" | "tool"`. -/
inductive Role where
  | user
  | assistant
  | tool
deriving DecidableEq, Repr

/-- `EventType` from types.ts:
`"message" | "thought" | "tool_call" | "tool_result" | "error" | "artifact"`. -/
inductive EventType where
  | message
  | thought
  | tool_call
  | tool_result
  | error
  | artifact
deriving DecidableEq, Repr

/-- JSON values, as produced by the platform `JSON.parse`.  JSON numbers are
doubles in JavaScript; no claim touches numeric JSON values, so they are
modelled as integers. -/
inductive Json where
  | null
  | bool (b : Bool)
  | num (n : Int)
  | str (s : String)
  | arr (elems : List Json)
  | obj (fields : List (String × Json))

/-- One parsed tool-call record pushed by the parser onto `data.calls`:
`{tool, args_raw, args}` where `args` is the best-effort JSON parse. -/
structure CallRec where
  tool : String
  args_raw : String
  args : Option Json

/-- The `data` payload of an event (a `Record<string, any>` in types.ts).
The parser stores `{ calls: [...] }`, `enrichParsedRun` stores
`{ tool_calls: [] }` (note the two different keys), and `parseJsonLog` stores
the raw `metadata` JSON value.  The constructor records which key is used. -/
inductive EventData where
  | calls (cs : List CallRec)
  | tool_calls (cs : List CallRec)
  | json (j : Json)

/-- `ParsedEvent` from types.ts. -/
structure ParsedEvent where
  seq : Nat
  role : Role
  type : EventType
  time : Option String := none
  model : Option String := none
  toolName : Option String := none
  toolCallId : Option String := none
  text : String := ""
  data : Option EventData := none

/-- `ParsedRun` from types.ts.  `warnings` is declared `any[]`, but every value
the pipeline ever puts in it is a plain string (`ParserWarning = string`). -/
structure ParsedRun where
  raw : String
  events : List ParsedEvent
  warnings : List String

/-- JavaScript truthiness of an optional string field: `undefined` and `""`
are falsy. -/
def optTruthy : Option String → Bool
  | none => false
  | some s => decide (s ≠ "")

/-- JavaScript truthiness of a JSON value (`null`, `false`, `0` and `""` are
falsy; arrays and objects are truthy). -/
def jsTruthy : Json → Bool
  | .null => false
  | .bool b => b
  | .num n => decide (n ≠ 0)
  | .str s => decide (s ≠ "")
  | .arr _ => true
  | .obj _ => true

/-- JavaScript truthiness of an optional `data` payload.  The two object-shaped
payloads are always truthy; a raw JSON payload is truthy per `jsTruthy`. -/
def jsTruthyData : Option EventData → Bool
  | none => false
  | some (.json j) => jsTruthy j
  | some (.calls _) => true
  | some (.tool_calls _) => true

/-! ### String helpers

These model the regular expressions in `PATTERNS` and the JavaScript string
methods used by the parser.  JavaScript `\s` and `trim` accept a larger set of
Unicode whitespace than `Char.isWhitespace`; the claims never depend on the
exotic whitespace characters, and the embedding uses `Char.isWhitespace`
(space, tab, CR, LF) throughout. -/

/-- Drop trailing whitespace of a character list (the `\s+$` replacement and
trailing `\s*` parts of the regexes). -/
def rtrimL (l : List Char) : List Char :=
  (l.reverse.dropWhile Char.isWhitespace).reverse

/-- `String.replace(/\s+$/, "")` on an event text at flush time. -/
def rtrimStr (s : String) : String :=
  ⟨rtrimL s.toList⟩

/-- JavaScript `String.prototype.trim`. -/
def jsTrim (s : String) : String :=
  ⟨(rtrimL s.toList).dropWhile Char.isWhitespace⟩

/-- `!line.trim()` — the blank-line test. -/
def isBlank (s : String) : Bool :=
  s.toList.all Char.isWhitespace

/-- `PATTERNS.DIVIDER = /^[UAT]$/` (case sensitive). -/
def isDivider (s : String) : Bool :=
  s == "U" || s == "A" || s == "T"

/-- Per-character ASCII uppercasing (`String.toUpper`, written over the
character list so that it reduces definitionally). -/
def upperChars (s : String) : List Char :=
  s.toList.map Char.toUpper

/-- `PATTERNS.USER = /^USER$/i`. -/
def isUserHeader (s : String) : Bool :=
  upperChars s == "USER".toList

/-- Case-insensitive match for `^FIRST\s*SECOND$` where `FIRST` and `SECOND`
are literal uppercase words (used for the three bracketed section headers). -/
def matchHeaderTwo (first second : String) (s : String) : Bool :=
  let u := upperChars s
  u.take first.length == first.toList &&
    (u.drop first.length).dropWhile Char.isWhitespace == second.toList

/-- `PATTERNS.ASSISTANT_THINKING = /^ASSISTANT\s*\[THINKING\]$/i`. -/
def isThinkingHeader (s : String) : Bool :=
  matchHeaderTwo "ASSISTANT" "[THINKING]" s

/-- `PATTERNS.ASSISTANT_TOOLCALL = /^ASSISTANT\s*\[TOOL_CALL\]$/i`. -/
def isToolCallHeader (s : String) : Bool :=
  matchHeaderTwo "ASSISTANT" "[TOOL_CALL]" s

/-- `PATTERNS.TOOL_RESULT = /^TOOL\s*\[TOOL_RESULT\]$/i`. -/
def isToolResultHeader (s : String) : Bool :=
  matchHeaderTwo "TOOL" "[TOOL_RESULT]" s

/-- `PATTERNS.TIME = /^\d{2}:\d{2}:\d{2}$/` (`\d` is exactly `[0-9]`, matching
`Char.isDigit`). -/
def isTimeShape (s : String) : Bool :=
  match s.toList with
  | [a, b, c1, d, e, c2, g, h] =>
    a.isDigit && b.isDigit && c1 == ':' && d.isDigit && e.isDigit &&
      c2 == ':' && g.isDigit && h.isDigit
  | _ => false

/-- Length of the maximal whitespace prefix. -/
def wsPrefixLen (l : List Char) : Nat :=
  (l.takeWhile Char.isWhitespace).length

/-- Forced continuation of `PATTERNS.MODEL` from position `j` of the text after
`Model:`: a whitespace run, a literal `-`, a whitespace run, the two-digit
time, then trailing whitespace to the end of the line.  Because whitespace
characters are neither `-` nor digits, the greedy `\s*` pieces of the regex
admit exactly one decomposition here; the function returns the captured time
when the continuation matches. -/
def modelCheckAt (s : List Char) (j : Nat) : Option String :=
  let rest := (s.drop j).dropWhile Char.isWhitespace
  match rest with
  | '-' :: rest2 =>
    let afterD := rest2.dropWhile Char.isWhitespace
    let t : String := ⟨afterD.take 8⟩
    if isTimeShape t && (afterD.drop 8).all Char.isWhitespace then some t else none
  | _ => none

/-- `PATTERNS.MODEL = /^Model:\s*(.+?)\s*-\s*(\d{2}:\d{2}:\d{2})\s*$/`, with
JavaScript backtracking semantics.  The leading greedy `\s*` prefers the
longest whitespace prefix; the lazy `(.+?)` prefers the shortest capture; the
continuation after the capture is deterministic (`modelCheckAt`).  The lines
fed to this matcher never contain `\n` (the input is split on `\n` first), so
the `.`-excludes-newline restriction is vacuous.  Returns
(model capture, time capture). -/
def modelMatch (line : String) : Option (String × String) :=
  let l := line.toList
  if l.take 6 = "Model:".toList then
    let s := l.drop 6
    let feasible := (List.range (s.length + 1)).filter
      (fun j => decide (1 ≤ j) && (modelCheckAt s j).isSome)
    match feasible.getLast? with
    | none => none
    | some jmax =>
      let i := min (wsPrefixLen s) (jmax - 1)
      match (feasible.filter (fun j => decide (i < j))).head? with
      | none => none
      | some jstar =>
        match modelCheckAt s jstar with
        | none => none
        | some t => some (⟨(s.drop i).take (jstar - i)⟩, t)
  else none

/-- `/^PRE\s*(.+)\s*$/` with JavaScript backtracking semantics, used for
`PATTERNS.TOOL_ID` (`PRE = "ID:"`) and `PATTERNS.TOOL_NAME`
(`PRE = "Tool:"`).  The greedy `(.+)` swallows everything up to the end of the
line (the trailing `\s*` matches empty), so the capture keeps trailing
whitespace; when the text after the prefix is all whitespace, the leading
`\s*` backtracks and the capture is the final whitespace character. -/
def tailCapture (pre : String) (line : String) : Option String :=
  let l := line.toList
  if l.take pre.length = pre.toList then
    let s := l.drop pre.length
    if s.isEmpty then none
    else
      let t := s.dropWhile Char.isWhitespace
      if t.isEmpty then
        match s.getLast? with
        | some c => some ⟨[c]⟩
        | none => none
      else some ⟨t⟩
  else none

/-- Characters of the tool-call bullet class.  The source file literally
contains the class `[-â€¢]` (a mojibake rendering of a bullet character), so
the class holds the dash and those three characters. -/
def isBulletChar (c : Char) : Bool :=
  c == '-' || c == 'â' || c == '€' || c == '¢'

/-- `[a-zA-Z0-9_]` — the tool-name character class. -/
def isNameChar (c : Char) : Bool :=
  c.isAlphanum || c == '_'

/-- `PATTERNS.TOOL_CALL = /^\s*[-â€¢]\s*([a-zA-Z0-9_]+)\((.*)\)\s*$/`.
The greedy pieces admit exactly one decomposition: the first non-whitespace
character must be a bullet, then a whitespace run, a nonempty name run ending
exactly at `(`, and the matched `)` is the last one followed only by
whitespace.  Returns (name capture, raw args capture). -/
def toolCallMatch (line : String) : Option (String × String) :=
  match line.toList.dropWhile Char.isWhitespace with
  | c :: rest =>
    if isBulletChar c then
      let afterWs := rest.dropWhile Char.isWhitespace
      let name := afterWs.takeWhile isNameChar
      if name.isEmpty then none
      else
        match afterWs.drop name.length with
        | '(' :: rest2 =>
          let body := rtrimL rest2
          match body.getLast? with
          | some ')' => some (⟨name⟩, ⟨body.dropLast⟩)
          | _ => none
        | _ => none
    else none
  | [] => none

/-- `normalizeInput`: `\r\n → \n`, then `\r → \n`. -/
def normChars : List Char → List Char
  | [] => []
  | '\r' :: '\n' :: rest => '\n' :: normChars rest
  | '\r' :: rest => '\n' :: normChars rest
  | c :: rest => c :: normChars rest

/-- `normalizeInput` from the parser module. -/
def normalizeInput (s : String) : String :=
  ⟨normChars s.toList⟩

/-- Accumulator for `String.split("\n")`. -/
def splitLinesAux : List Char → List Char → List String
  | [], acc => [⟨acc.reverse⟩]
  | '\n' :: rest, acc => ⟨acc.reverse⟩ :: splitLinesAux rest []
  | c :: rest, acc => splitLinesAux rest (c :: acc)

/-- `normalized.split("\n")`. -/
def splitLines (s : String) : List String :=
  splitLinesAux s.toList []

/-- Classification of one input line, mirroring the priority order of the
`if`/`continue` chain in `parseVictoriaLog` (blank, divider, the four
headers, time, model, ID, tool name, tool-call bullet, content). -/
inductive LineKind where
  | blank
  | divider
  | header (role : Role) (type : EventType)
  | timeMeta
  | modelMeta (model time : String)
  | idMeta (v : String)
  | toolMeta (v : String)
  | callBullet (name args : String)
  | content

/-- The line dispatch of `parseVictoriaLog`, in source order (first match
wins). -/
def classify (line : String) : LineKind :=
  if isBlank line then .blank
  else if isDivider line then .divider
  else if isUserHeader line then .header .user .message
  else if isThinkingHeader line then .header .assistant .thought
  else if isToolCallHeader line then .header .assistant .tool_call
  else if isToolResultHeader line then .header .tool .tool_result
  else if isTimeShape line then .timeMeta
  else
    match modelMatch line with
    | some (m, t) => .modelMeta m t
    | none =>
      match tailCapture "ID:" line with
      | some v => .idMeta v
      | none =>
        match tailCapture "Tool:" line with
        | some v => .toolMeta v
        | none =>
          match toolCallMatch line with
          | some (n, a) => .callBullet n a
          | none => .content

/-! ### Parser state and transitions (`parseVictoriaLog`) -/

/-- The `pending` buffer of the parser state: out-of-order metadata seen while
no event is open, stored as strings with `""` meaning "unset". -/
structure Pending where
  time : String
  model : String
  toolName : String
  toolId : String
deriving DecidableEq, Repr

/-- All-empty pending buffer. -/
def emptyPending : Pending :=
  ⟨"", "", "", ""⟩

/-- The parser's mutable `state` object plus the `events` output array. -/
structure PState where
  current : Option ParsedEvent
  seq : Nat
  pending : Pending
  events : List ParsedEvent

/-- `flush()`: right-trim the current event's text, emit it only when its
text, tool name or model is truthy, then clear `current` and `pending`.
When no event is open this is a no-op (in particular `pending` is kept). -/
def flush (st : PState) : PState :=
  match st.current with
  | none => st
  | some cur0 =>
    let cur := { cur0 with text := rtrimStr cur0.text }
    let evs :=
      if cur.text ≠ "" ∨ optTruthy cur.toolName = true ∨ optTruthy cur.model = true then
        st.events ++ [cur]
      else st.events
    { current := none, seq := st.seq, pending := emptyPending, events := evs }

/-- `start(role, type)`: flush, bump `seq`, open a fresh event, and copy the
truthy pending fields onto it (`pending` itself is not cleared here; only a
flush that found an open event clears it). -/
def start (st0 : PState) (role : Role) (type : EventType) : PState :=
  let st := flush st0
  let seq := st.seq + 1
  let cur0 : ParsedEvent := { seq := seq, role := role, type := type }
  let cur1 := if st.pending.time ≠ "" then { cur0 with time := some st.pending.time } else cur0
  let cur2 := if st.pending.model ≠ "" then { cur1 with model := some st.pending.model } else cur1
  let cur3 := if st.pending.toolName ≠ "" then { cur2 with toolName := some st.pending.toolName } else cur2
  let cur4 := if st.pending.toolId ≠ "" then { cur3 with toolCallId := some st.pending.toolId } else cur3
  { st with seq := seq, current := some cur4 }

/-- `append(text)`: append a line to the current event's text with a `\n`
separator when the text is nonempty; no-op when no event is open. -/
def appendText (cur : String) (line : String) : String :=
  if cur ≠ "" then cur ++ "\n" ++ line else cur ++ line

/-- The statewise version of `append`. -/
def appendSt (st : PState) (line : String) : PState :=
  match st.current with
  | some cur => { st with current := some { cur with text := appendText cur.text line } }
  | none => st

/-- `tryParseJson`: best-effort JSON parse of tool-call arguments.  `jp` is
the platform `JSON.parse`, returning `none` where the real function throws.
On failure, retry after escaping literal newlines; on second failure the
result stays `none` (`args` left undefined). -/
def escapeNewlines (s : String) : String :=
  ⟨s.toList.foldr (fun c acc => (if c = '\n' then ['\\', 'n'] else [c]) ++ acc) []⟩

/-- `tryParseJson(text)` from the parser module. -/
def tryParseJson (jp : String → Option Json) (text : String) : Option Json :=
  match jp (jsTrim text) with
  | some j => some j
  | none => jp (escapeNewlines (jsTrim text))

/-- The tool-call-bullet data push: auto-create `data = { calls: [] }` and
append `{tool, args_raw: args.trim(), args: tryParseJson(args)}`.  Within
`parseVictoriaLog` the current event's `data`, when present, is always a
`calls` payload (it is only ever created here); on any other payload the
original code would crash reading `.calls`, a state unreachable from this
parser, and the embedding leaves such a payload unchanged. -/
def addCall (jp : String → Option Json) (cur : ParsedEvent) (name args : String) : ParsedEvent :=
  let rec0 : CallRec := { tool := name, args_raw := jsTrim args, args := tryParseJson jp args }
  match cur.data with
  | none => { cur with data := some (.calls [rec0]) }
  | some (.calls cs) => { cur with data := some (.calls (cs ++ [rec0])) }
  | some other => { cur with data := some other }

/-- One iteration of the `for (const line of lines)` loop of
`parseVictoriaLog`. -/
def processLine (jp : String → Option Json) (st : PState) (line : String) : PState :=
  match classify line with
  | .blank =>
    match st.current with
    | some _ => appendSt st line
    | none => st
  | .divider => flush st
  | .header role type => start st role type
  | .timeMeta =>
    match st.current with
    | some cur =>
      if optTruthy cur.time = false then
        { st with current := some { cur with time := some line } }
      else st
    | none => { st with pending := { st.pending with time := line } }
  | .modelMeta m t =>
    match st.current with
    | some cur =>
      let cur1 := { cur with model := some m }
      let cur2 := if optTruthy cur1.time = false then { cur1 with time := some t } else cur1
      { st with current := some cur2 }
    | none => { st with pending := { st.pending with model := m, time := t } }
  | .idMeta v =>
    match st.current with
    | some cur => { st with current := some { cur with toolCallId := some v } }
    | none => { st with pending := { st.pending with toolId := v } }
  | .toolMeta v =>
    match st.current with
    | some cur => { st with current := some { cur with toolName := some v } }
    | none => { st with pending := { st.pending with toolName := v } }
  | .callBullet name args =>
    match st.current with
    | some cur =>
      let cur1 := if cur.type = EventType.tool_call then addCall jp cur name args else cur
      appendSt { st with current := some cur1 } line
    | none => st
  | .content => appendSt st line

/-- The initial parser state. -/
def initPState : PState :=
  { current := none, seq := 0, pending := emptyPending, events := [] }

/-- `parseVictoriaLog(rawInput)`: normalize newlines, split into lines, run
the per-line dispatch, and perform one final flush.  `warnings` is created
empty and never written on this path. -/
def parseVictoriaLog (jp : String → Option Json) (rawInput : String) : ParsedRun :=
  let normalized := normalizeInput rawInput
  let lines := splitLines normalized
  let stF := flush (lines.foldl (processLine jp) initPState)
  { raw := normalized, events := stF.events, warnings := [] }

/-! ### Validator (`validateParsedRun` from validation.ts)

The validator copies the run's warnings, walks the events once while tracking
two insertion-maps (`toolCallIds`, `toolsByName` — the latter is written but
never read), appends warnings, and returns `{...run, warnings}`: the events
and raw text are returned untouched.  JavaScript `Map` lookups return the most
recent `set` for a key; the association lists below push new entries at the
front and look up the first hit, which is the same observable behavior. -/

/-- Most-recent-wins insertion for the JavaScript `Map.set`. -/
def mapSet (m : List (String × ParsedEvent)) (k : String) (v : ParsedEvent) :
    List (String × ParsedEvent) :=
  (k, v) :: m

/-- `Map.get` (first, i.e. most recent, entry wins). -/
def mapGet (m : List (String × ParsedEvent)) (k : String) : Option ParsedEvent :=
  match m.find? (fun kv => kv.1 == k) with
  | some kv => some kv.2
  | none => none

/-- Printable form of a role, for warning messages. -/
def roleStr : Role → String
  | .user => "user"
  | .assistant => "assistant"
  | .tool => "tool"

/-- The timestamp-format branch of the validator: only when `event.time` is
truthy (present and nonempty) is the `HH:MM:SS` shape regex checked.  Quote
characters of the original message text are elided. -/
def timeWarning (e : ParsedEvent) : List String :=
  match e.time with
  | some t =>
    if t ≠ "" then
      if isTimeShape t then []
      else ["Event seq=" ++ toString e.seq ++ " has invalid timestamp format: " ++
        t ++ " (expected HH:MM:SS)"]
    else []
  | none => []

/-- The warnings contributed by one event, given the `toolCallIds` map built
from the earlier events, in the order the source pushes them (role mismatch,
then orphan/reference checks, then the timestamp check). -/
def eventWarnings (ids : List (String × ParsedEvent)) (e : ParsedEvent) : List String :=
  let wsCall :=
    if e.type = EventType.tool_call ∧ e.role ≠ Role.assistant then
      ["Tool call event seq=" ++ toString e.seq ++
        " should have role assistant, got " ++ roleStr e.role]
    else []
  let wsResult :=
    if e.type = EventType.tool_result then
      (if e.role ≠ Role.tool then
        ["Tool result event seq=" ++ toString e.seq ++
          " should have role tool, got " ++ roleStr e.role]
      else []) ++
      (if optTruthy e.toolCallId = true ∧ (mapGet ids (e.toolCallId.getD "")).isNone = true then
        ["Tool result seq=" ++ toString e.seq ++ " references toolCallId " ++
          e.toolCallId.getD "" ++ " but no matching tool_call found"]
      else if optTruthy e.toolName = false ∧ optTruthy e.toolCallId = false then
        ["Tool result seq=" ++ toString e.seq ++ " has neither toolName nor toolCallId"]
      else [])
    else []
  wsCall ++ wsResult ++ timeWarning e

/-- The `toolCallIds` map after one event (tool calls with a truthy id are
recorded). -/
def idsAfter (ids : List (String × ParsedEvent)) (e : ParsedEvent) :
    List (String × ParsedEvent) :=
  if e.type = EventType.tool_call ∧ optTruthy e.toolCallId = true then
    mapSet ids (e.toolCallId.getD "") e
  else ids

/-- The `toolsByName` map after one event (recorded but never read). -/
def namesAfter (m : List (String × ParsedEvent)) (e : ParsedEvent) :
    List (String × ParsedEvent) :=
  if e.type = EventType.tool_call ∧ optTruthy e.toolName = true then
    mapSet m (e.toolName.getD "") e
  else m

/-- The validator's loop state: accumulated warnings plus the two maps. -/
structure VState where
  warnings : List String
  toolCallIds : List (String × ParsedEvent)
  toolsByName : List (String × ParsedEvent)

/-- One iteration of the validator's `for (const event of run.events)` loop. -/
def validateEvent (st : VState) (e : ParsedEvent) : VState :=
  { warnings := st.warnings ++ eventWarnings st.toolCallIds e,
    toolCallIds := idsAfter st.toolCallIds e,
    toolsByName := namesAfter st.toolsByName e }

/-- The warnings appended by validating an event list starting from a given
`toolCallIds` map. -/
def warnList (ids : List (String × ParsedEvent)) : List ParsedEvent → List String
  | [] => []
  | e :: es => eventWarnings ids e ++ warnList (idsAfter ids e) es

/-- `validateParsedRun(run)` from validation.ts. -/
def validateParsedRun (run : ParsedRun) : ParsedRun :=
  let st := run.events.foldl validateEvent
    { warnings := run.warnings, toolCallIds := [], toolsByName := [] }
  { run with warnings := st.warnings }

/-! ### Enricher (`enrichParsedRun` from validation.ts) -/

/-- `List.map` with the element index, mirroring `Array.prototype.map`'s
`(event, index)` callback. -/
def mapWithIdxFrom (f : Nat → ParsedEvent → ParsedEvent) :
    Nat → List ParsedEvent → List ParsedEvent
  | _, [] => []
  | i, e :: es => f i e :: mapWithIdxFrom f (i + 1) es

/-- `run.events.map((event, index) => ...)`. -/
def mapWithIdx (f : Nat → ParsedEvent → ParsedEvent) (l : List ParsedEvent) :
    List ParsedEvent :=
  mapWithIdxFrom f 0 l

/-- `run.events.slice(0, index).reverse().find(...)`: the nearest preceding
`tool_call` whose `toolName` strictly equals the given one. -/
def findMatchingCall (orig : List ParsedEvent) (i : Nat) (tn : Option String) :
    Option ParsedEvent :=
  ((orig.take i).reverse).find?
    (fun e => decide (e.type = EventType.tool_call ∧ e.toolName = tn))

/-- First statement of the `map` callback of `enrichParsedRun`: the backward
`toolCallId` inference for a `tool_result` with a falsy id and a truthy tool
name (the id is copied only when the found call's own id is truthy). -/
def inferToolCallId (orig : List ParsedEvent) (i : Nat) (event : ParsedEvent) : ParsedEvent :=
  if event.type = EventType.tool_result ∧ optTruthy event.toolCallId = false ∧
      optTruthy event.toolName = true then
    match findMatchingCall orig i event.toolName with
    | some mc =>
      if optTruthy mc.toolCallId = true then { event with toolCallId := mc.toolCallId }
      else event
    | none => event
  else event

/-- Second statement of the `map` callback: default-construct the
`{ tool_calls: [] }` payload for a `tool_call` with a falsy `data`. -/
def initToolCallData (event : ParsedEvent) : ParsedEvent :=
  if jsTruthyData event.data = false ∧ event.type = EventType.tool_call then
    { event with data := some (EventData.tool_calls []) }
  else event

/-- The enrichment of one event: the two statements of the `map` callback in
source order. -/
def enrichEvent (orig : List ParsedEvent) (i : Nat) (event : ParsedEvent) : ParsedEvent :=
  initToolCallData (inferToolCallId orig i event)

/-- `enrichParsedRun(run)` from validation.ts. -/
def enrichParsedRun (run : ParsedRun) : ParsedRun :=
  { run with events := mapWithIdx (enrichEvent run.events) run.events }

/-! ### Causality linker (`buildCausalityChain` from formatter.ts) -/

/-- One causality edge.  The TypeScript fields are named `from`, `fromType`,
`to`, `toType`; `from` is a Lean keyword, so the seq fields are `fromSeq` and
`toSeq` here, and the type tags keep the `EventType` instead of its string
rendering. -/
structure ChainLink where
  fromSeq : Nat
  fromType : EventType
  toSeq : Nat
  toType : EventType
deriving DecidableEq, Repr

/-- First pass of `buildCausalityChain`: the `toolCallId → tool_call event`
map, built by a forward scan (most recent call with a repeated id wins). -/
def toolCallIdMap (events : List ParsedEvent) : List (String × ParsedEvent) :=
  events.foldl
    (fun m e =>
      if e.type = EventType.tool_call ∧ optTruthy e.toolCallId = true then
        mapSet m (e.toolCallId.getD "") e
      else m)
    []

/-- Second pass: one call→result edge for every `tool_result` whose truthy
`toolCallId` resolves in the map. -/
def idLinks (m : List (String × ParsedEvent)) : List ParsedEvent → List ChainLink
  | [] => []
  | e :: es =>
    (if e.type = EventType.tool_result ∧ optTruthy e.toolCallId = true then
      match mapGet m (e.toolCallId.getD "") with
      | some callEvent =>
        [{ fromSeq := callEvent.seq, fromType := callEvent.type,
           toSeq := e.seq, toType := e.type }]
      | none => []
    else []) ++ idLinks m es

/-- Third pass: edges between adjacent events (thought → tool call, and tool
result → next assistant thought/message). -/
def adjacencyLinks : List ParsedEvent → List ChainLink
  | current :: next :: rest =>
    (if current.type = EventType.thought ∧ next.type = EventType.tool_call then
      [{ fromSeq := current.seq, fromType := current.type,
         toSeq := next.seq, toType := next.type }]
    else []) ++
    (if current.type = EventType.tool_result ∧ next.role = Role.assistant ∧
        (next.type = EventType.thought ∨ next.type = EventType.message) then
      [{ fromSeq := current.seq, fromType := current.type,
         toSeq := next.seq, toType := next.type }]
    else []) ++ adjacencyLinks (next :: rest)
  | _ => []

/-- `buildCausalityChain(events)` from formatter.ts. -/
def buildCausalityChain (events : List ParsedEvent) : List ChainLink :=
  idLinks (toolCallIdMap events) events ++ adjacencyLinks events

/-! ### JSON ingestion (`parseJsonLog` / `parseJsonLogRaw`)

The platform pieces (`JSON.parse`, `Date#toISOString`, `JSON.stringify`) are
bundled in `JsPlatform`.  A JavaScript `for (const msg of messages)` over a
non-iterable truthy value throws a `TypeError`, as does reading a property of
`null`; those runtime failures are modelled as `Except.error`, since they
escape `parseJsonLogRaw` exactly like the explicit
`throw new Error("Invalid JSON format")`. -/

/-- The JavaScript platform functions used by the JSON ingestion path.
`jsonParse` returns `none` where `JSON.parse` throws; `dateToIso` stands for
`new Date(v).toISOString()`; `nowIso` for `new Date().toISOString()`;
`stringify` for `JSON.stringify(v, null, 2)`. -/
structure JsPlatform where
  jsonParse : String → Option Json
  dateToIso : Json → String
  nowIso : String
  stringify : Json → String

/-- Object field lookup (JSON.parse keeps the last duplicate key, so parsed
objects are duplicate-free and first-hit lookup is exact). -/
def jlookup : List (String × Json) → String → Option Json
  | [], _ => none
  | (k, v) :: rest, key => if k == key then some v else jlookup rest key

/-- Property access `j.k` for a JSON value that is not `null` (`undefined` on
primitives and missing keys). -/
def getField (j : Json) (k : String) : Option Json :=
  match j with
  | .obj fs => jlookup fs k
  | _ => none

/-- `Array.isArray(jsonData) ? jsonData : jsonData.messages || []`, followed
by the implicit iterability requirement of `for (const msg of messages)`:
property access on `null` and iterating a truthy non-iterable both raise a
`TypeError`; a nonempty string iterates its characters. -/
def getMessages : Json → Except String (List Json)
  | .arr xs => .ok xs
  | .null => .error "TypeError: cannot read messages of null"
  | .obj fs =>
    match jlookup fs "messages" with
    | some (.arr xs) => .ok xs
    | some (.str s) =>
      if s = "" then .ok []
      else .ok (s.toList.map (fun c => Json.str ⟨[c]⟩))
    | some .null => .ok []
    | some (.bool b) => if b then .error "TypeError: messages is not iterable" else .ok []
    | some (.num n) =>
      if n = 0 then .ok [] else .error "TypeError: messages is not iterable"
    | some (.obj _) => .error "TypeError: messages is not iterable"
    | none => .ok []
  | .bool _ => .ok []
  | .num _ => .ok []
  | .str _ => .ok []

/-- One message of the JSON log: role/content/timestamp/metadata extraction.
Reading `.role` of a `null` element throws.  Non-string truthy `content`
values fall outside the declared `string` type of `ParsedEvent.text` and are
outside the modelled domain (represented as `""`). -/
def processMsg (pf : JsPlatform) (seq : Nat) (msg : Json) : Except String ParsedEvent :=
  match msg with
  | .null => .error "TypeError: cannot read role of null"
  | _ =>
    let role :=
      match getField msg "role" with
      | some (.str s) =>
        if s = "user" then Role.user
        else if s = "assistant" then Role.assistant
        else Role.tool
      | _ => Role.tool
    let content :=
      match getField msg "content" with
      | some (.str s) => s
      | _ => ""
    let time :=
      match getField msg "timestamp" with
      | some ts => if jsTruthy ts then pf.dateToIso ts else pf.nowIso
      | none => pf.nowIso
    let dataVal :=
      match getField msg "metadata" with
      | some m => if jsTruthy m then EventData.json m else EventData.json (.obj [])
      | none => EventData.json (.obj [])
    .ok { seq := seq, role := role, type := EventType.message, time := some time,
          text := content, data := some dataVal }

/-- The `for (const msg of messages)` loop of `parseJsonLog`, with `seq`
assigned in array order starting at 1. -/
def buildJsonEvents (pf : JsPlatform) : Nat → List Json → Except String (List ParsedEvent)
  | _, [] => .ok []
  | seq, m :: ms => do
    let e ← processMsg pf seq m
    let rest ← buildJsonEvents pf (seq + 1) ms
    .ok (e :: rest)

/-- `parseJsonLog(jsonData)` from the JSON ingestion module. -/
def parseJsonLog (pf : JsPlatform) (jsonData : Json) : Except String ParsedRun := do
  let messages ← getMessages jsonData
  let events ← buildJsonEvents pf 1 messages
  .ok { raw := pf.stringify jsonData, events := events, warnings := [] }

/-- `parseJsonLogRaw(input)` for a string input: `JSON.parse` it, throwing
`"Invalid JSON format"` when the parse fails, then delegate to
`parseJsonLog`.  (The `any` overload that skips the parse is not modelled;
the claims concern the string entry.) -/
def parseJsonLogRaw (pf : JsPlatform) (input : String) : Except String ParsedRun :=
  match pf.jsonParse input with
  | none => .error "Invalid JSON format"
  | some d => parseJsonLog pf d

/-! ### Parser invariants

A single invariant over the parser state covers the sequence-number claims,
the inclusion invariant and the tool-call-record shape; it is preserved by
every transition helper and hence by every line. -/

/-- The emission condition of `flush`, in terms of the claim: nonempty text,
or a truthy tool name, or a truthy model. -/
def inclusionOk (e : ParsedEvent) : Prop :=
  e.text ≠ "" ∨ optTruthy e.toolName = true ∨ optTruthy e.model = true

/-- Every tool-call record of a `calls` payload carries the best-effort JSON
parse of its own (trimmed) raw argument text. -/
def callsOk (jp : String → Option Json) (e : ParsedEvent) : Prop :=
  ∀ cs, e.data = some (EventData.calls cs) → ∀ c ∈ cs, c.args = tryParseJson jp c.args_raw

/-- The parser-state invariant: emitted events have seqs in `[1, state.seq]`,
strictly increasing; an open event carries `seq = state.seq`, larger than all
emitted seqs; emitted events pass the inclusion test; and all tool-call
records are well-formed. -/
structure ParseInv (jp : String → Option Json) (st : PState) : Prop where
  seqLB : ∀ e ∈ st.events, 1 ≤ e.seq
  seqUB : ∀ e ∈ st.events, e.seq ≤ st.seq
  seqMono : st.events.Pairwise (fun a b => a.seq < b.seq)
  curSeq : ∀ c, st.current = some c → c.seq = st.seq ∧ 1 ≤ c.seq ∧ ∀ e ∈ st.events, e.seq < c.seq
  emitOk : ∀ e ∈ st.events, inclusionOk e
  callsEv : ∀ e ∈ st.events, callsOk jp e
  callsCur : ∀ c, st.current = some c → callsOk jp c

theorem parseInv_init (jp : String → Option Json) : ParseInv jp initPState := by
  constructor <;> simp [initPState]

theorem parseInv_flush (jp : String → Option Json) {st : PState} (h : ParseInv jp st) :
    ParseInv jp (flush st) := by
  unfold flush
  cases hc : st.current with
  | none => exact h
  | some cur0 =>
    obtain ⟨hseq, hone, hlt⟩ := h.curSeq cur0 hc
    have hcalls : callsOk jp { cur0 with text := rtrimStr cur0.text } := by
      intro cs hcs c hcmem
      exact h.callsCur cur0 hc cs hcs c hcmem
    by_cases hcond :
        ({ cur0 with text := rtrimStr cur0.text } : ParsedEvent).text ≠ "" ∨
          optTruthy ({ cur0 with text := rtrimStr cur0.text } : ParsedEvent).toolName = true ∨
          optTruthy ({ cur0 with text := rtrimStr cur0.text } : ParsedEvent).model = true
    · constructor <;> simp only [if_pos hcond]
      · intro e he
        rcases List.mem_append.1 he with he | he
        · exact h.seqLB e he
        · simp only [List.mem_singleton] at he; subst he; exact hone
      · intro e he
        rcases List.mem_append.1 he with he | he
        · exact h.seqUB e he
        · simp only [List.mem_singleton] at he; subst he; simp [hseq]
      · refine List.pairwise_append.2 ⟨h.seqMono, List.pairwise_singleton _ _, ?_⟩
        intro a ha b hb
        simp only [List.mem_singleton] at hb; subst hb
        exact hlt a ha
      · intro c hcc; simp at hcc
      · intro e he
        rcases List.mem_append.1 he with he | he
        · exact h.emitOk e he
        · simp only [List.mem_singleton] at he; subst he; exact hcond
      · intro e he
        rcases List.mem_append.1 he with he | he
        · exact h.callsEv e he
        · simp only [List.mem_singleton] at he; subst he; exact hcalls
      · intro c hcc; simp at hcc
    · constructor <;> simp only [if_neg hcond]
      · exact h.seqLB
      · exact h.seqUB
      · exact h.seqMono
      · intro c hcc; simp at hcc
      · exact h.emitOk
      · exact h.callsEv
      · intro c hcc; simp at hcc

theorem start_fields (st : PState) (role : Role) (type : EventType) :
    ∃ c, start st role type =
        { flush st with seq := (flush st).seq + 1, current := some c } ∧
      c.seq = (flush st).seq + 1 ∧ c.data = none := by
  unfold start
  dsimp only
  split <;> split <;> split <;> split <;> exact ⟨_, rfl, rfl, rfl⟩

theorem parseInv_start (jp : String → Option Json) {st : PState} (h : ParseInv jp st)
    (role : Role) (type : EventType) : ParseInv jp (start st role type) := by
  obtain ⟨c, heq, hcseq, hcdata⟩ := start_fields st role type
  have h1 := parseInv_flush jp h
  rw [heq]
  constructor
  · intro e he; exact h1.seqLB e he
  · intro e he; exact Nat.le_trans (h1.seqUB e he) (Nat.le_succ _)
  · exact h1.seqMono
  · intro c' hc'
    cases Option.some.inj hc'
    refine ⟨hcseq, by omega, fun e he => ?_⟩
    have := h1.seqUB e he; omega
  · exact h1.emitOk
  · exact h1.callsEv
  · intro c' hc'
    cases Option.some.inj hc'
    intro cs hcs
    rw [hcdata] at hcs
    exact absurd hcs (by simp)

theorem parseInv_updateCur (jp : String → Option Json) {st : PState} (h : ParseInv jp st)
    {cur c : ParsedEvent} (hc : st.current = some cur) (hseq : c.seq = cur.seq)
    (hcalls : callsOk jp c) : ParseInv jp { st with current := some c } := by
  obtain ⟨h1, h2, h3⟩ := h.curSeq cur hc
  constructor
  · exact h.seqLB
  · exact h.seqUB
  · exact h.seqMono
  · intro c' hc'
    cases Option.some.inj hc'
    exact ⟨by rw [hseq, h1], by rw [hseq]; exact h2, fun e he => by rw [hseq]; exact h3 e he⟩
  · exact h.emitOk
  · exact h.callsEv
  · intro c' hc'
    cases Option.some.inj hc'
    exact hcalls

theorem parseInv_updatePending (jp : String → Option Json) {st : PState} (h : ParseInv jp st)
    (p : Pending) : ParseInv jp { st with pending := p } := by
  constructor
  · exact h.seqLB
  · exact h.seqUB
  · exact h.seqMono
  · exact h.curSeq
  · exact h.emitOk
  · exact h.callsEv
  · exact h.callsCur

theorem parseInv_appendSt (jp : String → Option Json) {st : PState} (h : ParseInv jp st)
    (line : String) : ParseInv jp (appendSt st line) := by
  unfold appendSt
  cases hc : st.current with
  | none => exact h
  | some cur =>
    refine parseInv_updateCur jp h hc rfl ?_
    intro cs hcs
    exact h.callsCur cur hc cs hcs

/-! Trimming is idempotent, which makes the tool-call records self-contained:
`args` is the best-effort parse of the already-trimmed `args_raw`. -/

theorem dropWhile_twice (p : Char → Bool) (l : List Char) :
    (l.dropWhile p).dropWhile p = l.dropWhile p := by
  induction l with
  | nil => rfl
  | cons a t ih =>
    by_cases hp : p a = true
    · simp [List.dropWhile_cons, hp, ih]
    · simp [List.dropWhile_cons, hp]

theorem dropWhile_head_false (p : Char → Bool) (l : List Char) :
    ∀ c, (l.dropWhile p).head? = some c → p c = false := by
  induction l with
  | nil => intro c hc; simp at hc
  | cons a t ih =>
    intro c hc
    by_cases hp : p a = true
    · rw [List.dropWhile_cons, if_pos hp] at hc
      exact ih c hc
    · rw [List.dropWhile_cons, if_neg hp] at hc
      cases Option.some.inj hc
      exact Bool.eq_false_iff.2 hp

theorem dropWhile_ne_nil_imp (p : Char → Bool) (l : List Char) (h : l.dropWhile p ≠ []) :
    l ≠ [] := by
  intro hl; rw [hl] at h; exact h rfl

theorem getLast?_dropWhile (p : Char → Bool) (l : List Char) (h : l.dropWhile p ≠ []) :
    (l.dropWhile p).getLast? = l.getLast? := by
  induction l with
  | nil => exact absurd rfl h
  | cons a t ih =>
    by_cases hp : p a = true
    · rw [List.dropWhile_cons, if_pos hp] at h ⊢
      have ht : t ≠ [] := dropWhile_ne_nil_imp p t h
      rw [ih h]
      cases t with
      | nil => exact absurd rfl ht
      | cons b t' => rw [List.getLast?_cons_cons]
    · rw [List.dropWhile_cons, if_neg hp]

theorem dropWhile_of_head (p : Char → Bool) (l : List Char)
    (h : ∀ c, l.head? = some c → p c = false) : l.dropWhile p = l := by
  cases l with
  | nil => rfl
  | cons a t =>
    have := h a rfl
    simp [List.dropWhile_cons, this]

theorem rtrimL_dropWhile (l : List Char) :
    rtrimL ((rtrimL l).dropWhile Char.isWhitespace) = (rtrimL l).dropWhile Char.isWhitespace := by
  unfold rtrimL
  set u := l.reverse.dropWhile Char.isWhitespace with hu
  set v := u.reverse.dropWhile Char.isWhitespace with hv
  have hdrop : v.reverse.dropWhile Char.isWhitespace = v.reverse := by
    apply dropWhile_of_head
    intro c hc
    rw [List.head?_reverse] at hc
    by_cases hvnil : v = []
    · rw [hvnil] at hc; simp at hc
    · rw [hv, getLast?_dropWhile _ _ (by rw [← hv]; exact hvnil),
        List.getLast?_reverse] at hc
      exact dropWhile_head_false _ _ c hc
  rw [hdrop, List.reverse_reverse]

theorem jsTrim_idem (s : String) : jsTrim (jsTrim s) = jsTrim s := by
  unfold jsTrim
  have htl : ∀ l : List Char, (String.mk l).toList = l := fun _ => rfl
  rw [htl]
  rw [rtrimL_dropWhile, dropWhile_twice]

theorem tryParseJson_jsTrim (jp : String → Option Json) (s : String) :
    tryParseJson jp (jsTrim s) = tryParseJson jp s := by
  unfold tryParseJson
  rw [jsTrim_idem]

theorem callsOk_addCall (jp : String → Option Json) {cur : ParsedEvent}
    (h : callsOk jp cur) (name args : String) : callsOk jp (addCall jp cur name args) := by
  unfold addCall
  cases hd : cur.data with
  | none =>
    intro cs hcs c hcmem
    simp only at hcs
    cases Option.some.inj hcs
    have : c ∈ [({ tool := name, args_raw := jsTrim args, args := tryParseJson jp args } : CallRec)] := by
      have hlist := EventData.calls.inj (Option.some.inj hcs)
      rw [← hlist] at hcmem; exact hcmem
    simp only [List.mem_singleton] at this
    subst this
    exact (tryParseJson_jsTrim jp args).symm
  | some other =>
    cases other with
    | calls cs0 =>
      intro cs hcs c hcmem
      simp only at hcs
      have hcs' := EventData.calls.inj (Option.some.inj hcs)
      rw [← hcs'] at hcmem
      rcases List.mem_append.1 hcmem with hm | hm
      · exact h cs0 (by rw [hd]) c hm
      · simp only [List.mem_singleton] at hm
        subst hm
        exact (tryParseJson_jsTrim jp args).symm
    | tool_calls cs0 =>
      intro cs hcs c hcmem
      simp only at hcs
      exact absurd (Option.some.inj hcs) (by simp)
    | json j =>
      intro cs hcs c hcmem
      simp only at hcs
      exact absurd (Option.some.inj hcs) (by simp)

theorem parseInv_processLine (jp : String → Option Json) {st : PState} (h : ParseInv jp st)
    (line : String) : ParseInv jp (processLine jp st line) := by
  unfold processLine
  cases hk : classify line with
  | blank =>
    dsimp only
    cases hc : st.current with
    | none => exact h
    | some cur => exact parseInv_appendSt jp h line
  | divider => exact parseInv_flush jp h
  | header role type => exact parseInv_start jp h role type
  | timeMeta =>
    dsimp only
    cases hc : st.current with
    | none =>
      have h2 := parseInv_updatePending jp h { st.pending with time := line }
      rw [hc] at h2
      exact h2
    | some cur =>
      dsimp only
      by_cases ht : optTruthy cur.time = false
      · rw [if_pos ht]
        exact parseInv_updateCur jp h hc rfl (fun cs hcs => h.callsCur cur hc cs hcs)
      · rw [if_neg ht]; exact h
  | modelMeta m t =>
    dsimp only
    cases hc : st.current with
    | none =>
      have h2 := parseInv_updatePending jp h { st.pending with model := m, time := t }
      rw [hc] at h2
      exact h2
    | some cur =>
      dsimp only
      by_cases ht : optTruthy ({ cur with model := some m } : ParsedEvent).time = false
      · rw [if_pos ht]
        exact parseInv_updateCur jp h hc rfl (fun cs hcs => h.callsCur cur hc cs hcs)
      · rw [if_neg ht]
        exact parseInv_updateCur jp h hc rfl (fun cs hcs => h.callsCur cur hc cs hcs)
  | idMeta v =>
    dsimp only
    cases hc : st.current with
    | none =>
      have h2 := parseInv_updatePending jp h { st.pending with toolId := v }
      rw [hc] at h2
      exact h2
    | some cur => exact parseInv_updateCur jp h hc rfl (fun cs hcs => h.callsCur cur hc cs hcs)
  | toolMeta v =>
    dsimp only
    cases hc : st.current with
    | none =>
      have h2 := parseInv_updatePending jp h { st.pending with toolName := v }
      rw [hc] at h2
      exact h2
    | some cur => exact parseInv_updateCur jp h hc rfl (fun cs hcs => h.callsCur cur hc cs hcs)
  | callBullet name args =>
    dsimp only
    cases hc : st.current with
    | none => exact h
    | some cur =>
      dsimp only
      have hcur : callsOk jp cur := fun cs hcs => h.callsCur cur hc cs hcs
      by_cases hty : cur.type = EventType.tool_call
      · rw [if_pos hty]
        have haddseq : (addCall jp cur name args).seq = cur.seq := by
          unfold addCall
          cases cur.data with
          | none => rfl
          | some other => cases other <;> rfl
        exact parseInv_appendSt jp
          (parseInv_updateCur jp h hc haddseq (callsOk_addCall jp hcur name args)) line
      · rw [if_neg hty]
        exact parseInv_appendSt jp (parseInv_updateCur jp h hc rfl hcur) line
  | content => exact parseInv_appendSt jp h line

theorem parseInv_foldl (jp : String → Option Json) (lines : List String) :
    ∀ st : PState, ParseInv jp st → ParseInv jp (lines.foldl (processLine jp) st) := by
  induction lines with
  | nil => intro st h; exact h
  | cons l rest ih =>
    intro st h
    exact ih _ (parseInv_processLine jp h l)

theorem parseInv_run (jp : String → Option Json) (rawInput : String) :
    ParseInv jp (flush ((splitLines (normalizeInput rawInput)).foldl (processLine jp) initPState)) :=
  parseInv_flush jp (parseInv_foldl jp _ initPState (parseInv_init jp))

/-! ### Claim theorems: parser (C1, C4) -/

/-- A fixed trivial stand-in for the platform `JSON.parse`, used for concrete
inputs in counterexamples and witnesses. -/
def jpNone : String → Option Json := fun _ => none

/-- C1 counterexample.  On the input `"USER\nUSER\nhi"` the first `USER`
opens an event that is discarded at the next flush (empty text, no tool name,
no model) but still consumed sequence number 1, so the single emitted event
has `seq = 2`: the sequence numbers are not `1, 2, …` (they are not
"increasing by 1 starting at 1"). -/
theorem parseVictoriaLog_seq_not_consecutive :
    ¬ (((parseVictoriaLog jpNone "USER\nUSER\nhi").events.map fun e => e.seq) =
      List.range' 1 (parseVictoriaLog jpNone "USER\nUSER\nhi").events.length) := by
  intro hcontra
  rw [show ((parseVictoriaLog jpNone "USER\nUSER\nhi").events.map fun e => e.seq) = [2]
      from rfl,
    show (parseVictoriaLog jpNone "USER\nUSER\nhi").events.length = 1 from rfl] at hcontra
  simp [List.range'] at hcontra

/-- C1 (amended): for every input string, the sequence numbers of the events
emitted by `parseVictoriaLog` are strictly increasing and at least 1; they
need not be consecutive and the first need not be 1, because an event
discarded at flush still consumes a sequence number. -/
theorem parseVictoriaLog_seq_strictMono (jp : String → Option Json) (rawInput : String) :
    ((parseVictoriaLog jp rawInput).events.Pairwise fun a b => a.seq < b.seq) ∧
      ∀ e ∈ (parseVictoriaLog jp rawInput).events, 1 ≤ e.seq := by
  have h := parseInv_run jp rawInput
  exact ⟨h.seqMono, h.seqLB⟩

/-- The single event of the parse of `"USER\nhi"`. -/
def evUserHi : ParsedEvent :=
  { seq := 1, role := Role.user, type := EventType.message, text := "hi" }

theorem parseVictoriaLog_seq_strictMono_witness : 1 ≤ evUserHi.seq :=
  (parseVictoriaLog_seq_strictMono jpNone "USER\nhi").2 evUserHi
    (by rw [show (parseVictoriaLog jpNone "USER\nhi").events = [evUserHi] from rfl]
        exact List.mem_singleton_self _)

/-- C4: every event emitted by `parseVictoriaLog` has nonempty text, or a
tool name, or a model (`flush` drops an event with none of the three), and it
is dropped silently — the parse-path warning list is always empty. -/
theorem parseVictoriaLog_inclusion (jp : String → Option Json) (rawInput : String) :
    (∀ e ∈ (parseVictoriaLog jp rawInput).events,
      e.text ≠ "" ∨ e.toolName.isSome = true ∨ e.model.isSome = true) ∧
      (parseVictoriaLog jp rawInput).warnings = [] := by
  have h := parseInv_run jp rawInput
  refine ⟨fun e he => ?_, rfl⟩
  rcases h.emitOk e he with ht | htn | hm
  · exact Or.inl ht
  · refine Or.inr (Or.inl ?_)
    cases htn' : e.toolName with
    | none => rw [htn'] at htn; simp [optTruthy] at htn
    | some s => rfl
  · refine Or.inr (Or.inr ?_)
    cases hm' : e.model with
    | none => rw [hm'] at hm; simp [optTruthy] at hm
    | some s => rfl

theorem parseVictoriaLog_inclusion_witness :
    evUserHi.text ≠ "" ∨ evUserHi.toolName.isSome = true ∨ evUserHi.model.isSome = true :=
  (parseVictoriaLog_inclusion jpNone "USER\nhi").1 evUserHi
    (by rw [show (parseVictoriaLog jpNone "USER\nhi").events = [evUserHi] from rfl]
        exact List.mem_singleton_self _)

/-! ### Claim theorems: validator (C6, C9) -/

theorem validateEvent_warnings (st : VState) (e : ParsedEvent) :
    (validateEvent st e).warnings = st.warnings ++ eventWarnings st.toolCallIds e := rfl

theorem validate_foldl (es : List ParsedEvent) :
    ∀ st : VState, (es.foldl validateEvent st).warnings = st.warnings ++ warnList st.toolCallIds es := by
  induction es with
  | nil => intro st; simp [warnList]
  | cons e rest ih =>
    intro st
    rw [List.foldl_cons, ih (validateEvent st e)]
    show (st.warnings ++ eventWarnings st.toolCallIds e) ++
        warnList (idsAfter st.toolCallIds e) rest = _
    rw [List.append_assoc]
    rfl

/-- C6: the validator never touches the events (or the raw text); it returns
the input warnings extended with the warnings computed from the events, so
the input warnings are a prefix of the output and the length only grows. -/
theorem validateParsedRun_frame (run : ParsedRun) :
    (validateParsedRun run).events = run.events ∧
    (validateParsedRun run).raw = run.raw ∧
    (validateParsedRun run).warnings = run.warnings ++ warnList [] run.events ∧
    run.warnings.length ≤ (validateParsedRun run).warnings.length := by
  have hw : (validateParsedRun run).warnings = run.warnings ++ warnList [] run.events := by
    show (run.events.foldl validateEvent
      { warnings := run.warnings, toolCallIds := [], toolsByName := [] }).warnings = _
    rw [validate_foldl]
  exact ⟨rfl, rfl, hw, by rw [hw]; simp⟩

/-- The event of the C9 counterexample: its `time` field is present but the
empty string. -/
def evEmptyTime : ParsedEvent :=
  { seq := 1, role := Role.user, type := EventType.message, time := some "", text := "x" }

/-- C9 counterexample.  An event with `time = ""` has a present `time` field
that fails the `\d\d:\d\d:\d\d` shape, yet the validator emits no warning,
because the truthiness guard `if (event.time)` skips the empty string. -/
theorem validateParsedRun_empty_time_no_warning :
    (validateParsedRun { raw := "", events := [evEmptyTime], warnings := [] }).warnings = [] ∧
    evEmptyTime.time.isSome = true ∧ isTimeShape "" = false :=
  ⟨rfl, rfl, rfl⟩

/-- C9 (amended): the timestamp check is shape-only, with a truthiness guard.
`"25:99:99"` passes the shape test; the validator's warnings are exactly the
input warnings plus the per-event stream (whose timestamp component is
`timeWarning`); and `timeWarning` fires exactly on a present, nonempty `time`
that fails the shape — the empty string, though present, is skipped. -/
theorem validateParsedRun_time_shape_only :
    isTimeShape "25:99:99" = true ∧
    (∀ run : ParsedRun,
      (validateParsedRun run).warnings = run.warnings ++ warnList [] run.events) ∧
    (∀ (e : ParsedEvent) (t : String), e.time = some t →
      (timeWarning e = [] ↔ (t = "" ∨ isTimeShape t = true))) ∧
    (∀ e : ParsedEvent, e.time = none → timeWarning e = []) := by
  refine ⟨rfl, fun run => (validateParsedRun_frame run).2.2.1, ?_, ?_⟩
  · intro e t ht
    unfold timeWarning
    rw [ht]
    dsimp only
    by_cases h0 : t = ""
    · rw [if_neg (by simp [h0])]
      simp [h0]
    · rw [if_pos h0]
      by_cases hs : isTimeShape t = true
      · rw [if_pos hs]; simp [hs]
      · rw [if_neg hs]
        simp only [Bool.not_eq_true] at hs
        simp [h0, hs]
  · intro e ht
    unfold timeWarning
    rw [ht]

/-- The event used by the C9 witness: a well-shaped but out-of-range time. -/
def evTime2599 : ParsedEvent :=
  { seq := 1, role := Role.user, type := EventType.message, time := some "25:99:99", text := "x" }

theorem validateParsedRun_time_shape_only_witness : timeWarning evTime2599 = [] :=
  (validateParsedRun_time_shape_only.2.2.1 evTime2599 "25:99:99" rfl).2 (Or.inr rfl)

/-! ### Enrichment lemmas (C3, C5, C7) -/

theorem getElem?_mapWithIdxFrom (f : Nat → ParsedEvent → ParsedEvent) :
    ∀ (l : List ParsedEvent) (n i : Nat),
      (mapWithIdxFrom f n l)[i]? = (l[i]?).map (fun e => f (n + i) e) := by
  intro l
  induction l with
  | nil => intro n i; simp [mapWithIdxFrom]
  | cons e es ih =>
    intro n i
    cases i with
    | zero => simp [mapWithIdxFrom]
    | succ i' =>
      simp only [mapWithIdxFrom, List.getElem?_cons_succ]
      rw [show n + (i' + 1) = n + 1 + i' from by omega]
      exact ih (n + 1) i'

theorem getElem?_enrich (run : ParsedRun) (i : Nat) :
    (enrichParsedRun run).events[i]? = (run.events[i]?).map (enrichEvent run.events i) := by
  show (mapWithIdx (enrichEvent run.events) run.events)[i]? = _
  unfold mapWithIdx
  rw [getElem?_mapWithIdxFrom]
  simp

theorem inferToolCallId_fields (orig : List ParsedEvent) (i : Nat) (e : ParsedEvent) :
    (inferToolCallId orig i e).seq = e.seq ∧ (inferToolCallId orig i e).role = e.role ∧
    (inferToolCallId orig i e).type = e.type ∧ (inferToolCallId orig i e).time = e.time ∧
    (inferToolCallId orig i e).model = e.model ∧
    (inferToolCallId orig i e).toolName = e.toolName ∧
    (inferToolCallId orig i e).text = e.text ∧ (inferToolCallId orig i e).data = e.data := by
  unfold inferToolCallId
  repeat' split
  all_goals exact ⟨rfl, rfl, rfl, rfl, rfl, rfl, rfl, rfl⟩

theorem inferToolCallId_of_not_result (orig : List ParsedEvent) (i : Nat) (e : ParsedEvent)
    (h : e.type ≠ EventType.tool_result) : inferToolCallId orig i e = e := by
  unfold inferToolCallId
  rw [if_neg (fun hc => h hc.1)]

theorem inferToolCallId_changed (orig : List ParsedEvent) (i : Nat) (e : ParsedEvent)
    (h : (inferToolCallId orig i e).toolCallId ≠ e.toolCallId) :
    ∃ mc, findMatchingCall orig i e.toolName = some mc ∧ optTruthy mc.toolCallId = true ∧
      inferToolCallId orig i e = { e with toolCallId := mc.toolCallId } ∧
      e.type = EventType.tool_result ∧ optTruthy e.toolCallId = false ∧
      optTruthy e.toolName = true := by
  unfold inferToolCallId at h ⊢
  by_cases hcond : e.type = EventType.tool_result ∧ optTruthy e.toolCallId = false ∧
      optTruthy e.toolName = true
  · rw [if_pos hcond] at h ⊢
    cases hfind : findMatchingCall orig i e.toolName with
    | none => rw [hfind] at h; exact absurd rfl h
    | some mc =>
      rw [hfind] at h
      dsimp only at h
      by_cases hid : optTruthy mc.toolCallId = true
      · refine ⟨mc, rfl, hid, ?_, hcond.1, hcond.2.1, hcond.2.2⟩
        dsimp only
        rw [if_pos hid]
      · rw [if_neg hid] at h
        exact absurd rfl h
  · rw [if_neg hcond] at h; exact absurd rfl h

theorem initToolCallData_fields (e : ParsedEvent) :
    (initToolCallData e).seq = e.seq ∧ (initToolCallData e).role = e.role ∧
    (initToolCallData e).type = e.type ∧ (initToolCallData e).time = e.time ∧
    (initToolCallData e).model = e.model ∧ (initToolCallData e).toolName = e.toolName ∧
    (initToolCallData e).toolCallId = e.toolCallId ∧ (initToolCallData e).text = e.text := by
  unfold initToolCallData
  split
  all_goals exact ⟨rfl, rfl, rfl, rfl, rfl, rfl, rfl, rfl⟩

theorem initToolCallData_init (e : ParsedEvent) (h1 : e.type = EventType.tool_call)
    (h2 : jsTruthyData e.data = false) :
    initToolCallData e = { e with data := some (EventData.tool_calls []) } := by
  unfold initToolCallData
  rw [if_pos ⟨h2, h1⟩]

theorem initToolCallData_keep (e : ParsedEvent)
    (h : ¬(jsTruthyData e.data = false ∧ e.type = EventType.tool_call)) :
    initToolCallData e = e := by
  unfold initToolCallData
  rw [if_neg h]

theorem getq_take (l : List ParsedEvent) :
    ∀ i j : Nat, j < i → (l.take i)[j]? = l[j]? := by
  induction l with
  | nil => intro i j _; simp
  | cons e es ih =>
    intro i j hj
    cases i with
    | zero => omega
    | succ i' =>
      cases j with
      | zero => simp
      | succ j' =>
        simp only [List.take_succ_cons, List.getElem?_cons_succ]
        exact ih i' j' (by omega)

/-- C3 (amended): after enrichment, every `tool_call` event whose `data` was
falsy has `data` initialized to the empty list under the `tool_calls` key
(which differs from the `calls` key the parser itself uses); truthy payloads
and payloads of non-`tool_call` events are untouched, all other fields except
the `toolCallId` inference on `tool_result` events are unchanged. -/
theorem enrichParsedRun_data_init (run : ParsedRun) (i : Nat) (e : ParsedEvent)
    (he : run.events[i]? = some e) :
    ∃ e', (enrichParsedRun run).events[i]? = some e' ∧
      (e.type = EventType.tool_call → jsTruthyData e.data = false →
        e'.data = some (EventData.tool_calls [])) ∧
      (jsTruthyData e.data = true → e'.data = e.data) ∧
      (e.type ≠ EventType.tool_call → e'.data = e.data) ∧
      e'.seq = e.seq ∧ e'.role = e.role ∧ e'.type = e.type ∧ e'.time = e.time ∧
      e'.model = e.model ∧ e'.toolName = e.toolName ∧ e'.text = e.text ∧
      (e.type ≠ EventType.tool_result → e'.toolCallId = e.toolCallId) := by
  refine ⟨enrichEvent run.events i e, by rw [getElem?_enrich, he]; rfl, ?_⟩
  set m := inferToolCallId run.events i e with hm
  obtain ⟨ms, mr, mt, mti, mm, mtn, mtx, md⟩ := inferToolCallId_fields run.events i e
  rw [← hm] at ms mr mt mti mm mtn mtx md
  have henr : enrichEvent run.events i e = initToolCallData m := rfl
  obtain ⟨is_, ir, it, iti, im, itn, itc, itx⟩ := initToolCallData_fields m
  refine ⟨?_, ?_, ?_, ?_, ?_, ?_, ?_, ?_, ?_, ?_, ?_⟩
  · intro h1 h2
    rw [henr, initToolCallData_init m (by rw [mt, h1]) (by rw [md, h2])]
  · intro h2
    rw [henr, initToolCallData_keep m (fun hc => by rw [md, h2] at hc; exact absurd hc.1 (by simp)), md]
  · intro h1
    rw [henr, initToolCallData_keep m (fun hc => h1 (by rw [← mt, hc.2])), md]
  · rw [henr, is_, ms]
  · rw [henr, ir, mr]
  · rw [henr, it, mt]
  · rw [henr, iti, mti]
  · rw [henr, im, mm]
  · rw [henr, itn, mtn]
  · rw [henr, itx, mtx]
  · intro h1
    rw [henr, itc, hm, inferToolCallId_of_not_result run.events i e h1]

/-- A `tool_call` event with an id, no `data`. -/
def evCallT : ParsedEvent :=
  { seq := 1, role := Role.assistant, type := EventType.tool_call,
    toolName := some "t", toolCallId := some "c1", text := "x" }

/-- A `tool_result` event matching `evCallT` by tool name, with no id. -/
def evResT : ParsedEvent :=
  { seq := 2, role := Role.tool, type := EventType.tool_result,
    toolName := some "t", text := "y" }

/-- `evResT` after enrichment: the id of `evCallT` has been copied in. -/
def evResTEnr : ParsedEvent :=
  { seq := 2, role := Role.tool, type := EventType.tool_result,
    toolName := some "t", toolCallId := some "c1", text := "y" }

/-- The run used by the enrichment counterexamples and witnesses. -/
def runToolCallNoData : ParsedRun :=
  { raw := "", warnings := [], events := [evCallT, evResT] }

/-- C3 counterexample.  Enrichment initializes a missing payload under the
`tool_calls` key, while the parser attaches tool-call records under the
`calls` key — not "the same key the parser uses"; and enrichment also alters
the `toolCallId` field of a `tool_result` event, so `data` initialization is
not the only change. -/
theorem enrichParsedRun_key_mismatch :
    ((enrichParsedRun runToolCallNoData).events.map fun e => e.data) =
      [some (EventData.tool_calls []), none] ∧
    ((parseVictoriaLog jpNone "ASSISTANT [TOOL_CALL]\n- search(1)").events.map fun e => e.data) =
      [some (EventData.calls [{ tool := "search", args_raw := "1", args := none }])] ∧
    some (EventData.tool_calls []) ≠
      some (EventData.calls [{ tool := "search", args_raw := "1", args := none }]) ∧
    ((enrichParsedRun runToolCallNoData).events.map fun e => e.toolCallId) =
      [some "c1", some "c1"] ∧
    (runToolCallNoData.events.map fun e => e.toolCallId) = [some "c1", none] :=
  ⟨rfl, rfl, fun h => EventData.noConfusion (Option.some.inj h), rfl, rfl⟩

theorem enrichParsedRun_data_init_witness :
    ∃ e', (enrichParsedRun runToolCallNoData).events[0]? = some e' ∧
      (evCallT.type = EventType.tool_call → jsTruthyData evCallT.data = false →
        e'.data = some (EventData.tool_calls [])) ∧
      (jsTruthyData evCallT.data = true → e'.data = evCallT.data) ∧
      (evCallT.type ≠ EventType.tool_call → e'.data = evCallT.data) ∧
      e'.seq = evCallT.seq ∧ e'.role = evCallT.role ∧ e'.type = evCallT.type ∧
      e'.time = evCallT.time ∧ e'.model = evCallT.model ∧ e'.toolName = evCallT.toolName ∧
      e'.text = evCallT.text ∧
      (evCallT.type ≠ EventType.tool_result → e'.toolCallId = evCallT.toolCallId) :=
  enrichParsedRun_data_init runToolCallNoData 0 evCallT rfl

/-- C7: backward-only correlation.  In a Run whose event seqs are strictly
increasing (the Run invariant), whenever enrichment changes a `toolCallId`,
the new value is copied from a `tool_call` at a strictly earlier index — and
hence with a strictly smaller `seq` — whose `toolName` matches. -/
theorem enrichParsedRun_backward (run : ParsedRun)
    (hmono : run.events.Pairwise fun a b => a.seq < b.seq)
    (i : Nat) (e e' : ParsedEvent) (he : run.events[i]? = some e)
    (he' : (enrichParsedRun run).events[i]? = some e')
    (hch : e'.toolCallId ≠ e.toolCallId) :
    ∃ j mc, j < i ∧ run.events[j]? = some mc ∧ mc.type = EventType.tool_call ∧
      mc.toolName = e.toolName ∧ mc.toolCallId = e'.toolCallId ∧ mc.seq < e.seq := by
  have he'' : e' = enrichEvent run.events i e := by
    rw [getElem?_enrich, he] at he'
    exact (Option.some.inj he').symm
  have hinit := (initToolCallData_fields (inferToolCallId run.events i e)).2.2.2.2.2.2.1
  have hchInfer : (inferToolCallId run.events i e).toolCallId ≠ e.toolCallId := by
    intro hcon
    apply hch
    rw [he'']
    show (initToolCallData (inferToolCallId run.events i e)).toolCallId = e.toolCallId
    rw [hinit, hcon]
  obtain ⟨mc, hfind, hid, heq, hres, hfl, htn⟩ := inferToolCallId_changed run.events i e hchInfer
  have hfind' : ((run.events.take i).reverse).find?
      (fun e2 => decide (e2.type = EventType.tool_call ∧ e2.toolName = e.toolName)) = some mc :=
    hfind
  have hmem : mc ∈ run.events.take i :=
    List.mem_reverse.1 (List.mem_of_find?_eq_some hfind')
  have hprop : mc.type = EventType.tool_call ∧ mc.toolName = e.toolName := by
    have hp := List.find?_some hfind'
    simp only [decide_eq_true_eq] at hp
    exact hp
  obtain ⟨j, hj, hjv⟩ := List.getElem_of_mem hmem
  have hjlen : j < i := by
    have := hj
    rw [List.length_take] at this
    omega
  have hjq : run.events[j]? = some mc := by
    rw [← getq_take run.events i j hjlen, List.getElem?_eq_getElem hj, hjv]
  have hilen : i < run.events.length := (List.getElem?_eq_some.1 he).1
  have hjlen2 : j < run.events.length := (List.getElem?_eq_some.1 hjq).1
  have hje : run.events[j] = mc := by
    have := (List.getElem?_eq_some.1 hjq).2
    exact this
  have hie : run.events[i] = e := by
    have := (List.getElem?_eq_some.1 he).2
    exact this
  have hseq : mc.seq < e.seq := by
    have hpw := (List.pairwise_iff_getElem.1 hmono) j i hjlen2 hilen hjlen
    rw [hje, hie] at hpw
    exact hpw
  have hid' : mc.toolCallId = e'.toolCallId := by
    rw [he'']
    show mc.toolCallId = (initToolCallData (inferToolCallId run.events i e)).toolCallId
    rw [hinit, heq]
  exact ⟨j, mc, hjlen, hjq, hprop.1, hprop.2, hid', hseq⟩

theorem enrichParsedRun_backward_witness :
    ∃ j mc, j < 1 ∧ runToolCallNoData.events[j]? = some mc ∧
      mc.type = EventType.tool_call ∧ mc.toolName = evResT.toolName ∧
      mc.toolCallId = evResTEnr.toolCallId ∧ mc.seq < evResT.seq :=
  enrichParsedRun_backward runToolCallNoData
    (by simp [runToolCallNoData, evCallT, evResT, List.pairwise_cons])
    1 evResT evResTEnr rfl rfl (Option.some_ne_none _)

/-! ### Claim theorems: causality linker (C2) -/

/-- A `tool_result` that precedes the matching `tool_call` in the list. -/
def evResX : ParsedEvent :=
  { seq := 1, role := Role.tool, type := EventType.tool_result,
    toolCallId := some "x", text := "r" }

/-- A `tool_call` that follows `evResX` but carries the id it references. -/
def evCallX : ParsedEvent :=
  { seq := 2, role := Role.assistant, type := EventType.tool_call,
    toolCallId := some "x", text := "c" }

/-- C2 counterexample.  The id map is built over the whole list before edges
are created, so a `tool_result` that precedes the matching `tool_call`
receives an edge pointing from the later event back to the earlier one:
`from.seq = 2 > to.seq = 1`, even though the seqs are strictly increasing. -/
theorem buildCausalityChain_backward_edge :
    buildCausalityChain [evResX, evCallX] =
      [{ fromSeq := 2, fromType := EventType.tool_call,
         toSeq := 1, toType := EventType.tool_result }] ∧
    ¬ (2 : Nat) ≤ 1 ∧
    ([evResX, evCallX].Pairwise fun a b => a.seq < b.seq) := by
  refine ⟨rfl, by omega, ?_⟩
  simp [List.pairwise_cons, evResX, evCallX]

/-- No `tool_result` resolves (in the completed id map) to a `tool_call`
with a larger `seq`: the hypothesis under which the spec's "edges only point
forward" statement is actually true. -/
def noForwardRef (events : List ParsedEvent) : Bool :=
  events.all fun e =>
    if e.type = EventType.tool_result ∧ optTruthy e.toolCallId = true then
      match mapGet (toolCallIdMap events) (e.toolCallId.getD "") with
      | some call => decide (call.seq ≤ e.seq)
      | none => true
    else true

theorem noForwardRef_spec (events : List ParsedEvent) (h : noForwardRef events = true) :
    ∀ e ∈ events, e.type = EventType.tool_result → optTruthy e.toolCallId = true →
      ∀ call, mapGet (toolCallIdMap events) (e.toolCallId.getD "") = some call →
        call.seq ≤ e.seq := by
  intro e he h1 h2 call hg
  have hall := List.all_eq_true.1 h e he
  rw [if_pos ⟨h1, h2⟩, hg] at hall
  exact of_decide_eq_true hall

theorem idLinks_bound (m : List (String × ParsedEvent)) :
    ∀ es : List ParsedEvent,
      (∀ e ∈ es, e.type = EventType.tool_result → optTruthy e.toolCallId = true →
        ∀ call, mapGet m (e.toolCallId.getD "") = some call → call.seq ≤ e.seq) →
      ∀ link ∈ idLinks m es, link.fromSeq ≤ link.toSeq := by
  intro es
  induction es with
  | nil => intro _ link hl; simp [idLinks] at hl
  | cons e rest ih =>
    intro hh link hl
    simp only [idLinks] at hl
    rcases List.mem_append.1 hl with h1 | h2
    · by_cases hc : e.type = EventType.tool_result ∧ optTruthy e.toolCallId = true
      · rw [if_pos hc] at h1
        cases hg : mapGet m (e.toolCallId.getD "") with
        | none => rw [hg] at h1; simp at h1
        | some call =>
          rw [hg] at h1
          simp only [List.mem_singleton] at h1
          subst h1
          exact hh e (List.mem_cons_self e rest) hc.1 hc.2 call hg
      · rw [if_neg hc] at h1; simp at h1
    · exact ih (fun e2 he2 => hh e2 (List.mem_cons_of_mem _ he2)) link h2

theorem adjacencyLinks_bound :
    ∀ es : List ParsedEvent, (es.Pairwise fun a b => a.seq < b.seq) →
      ∀ link ∈ adjacencyLinks es, link.fromSeq ≤ link.toSeq := by
  intro es
  induction es with
  | nil => intro _ link hl; simp [adjacencyLinks] at hl
  | cons a rest ih =>
    intro hp link hl
    cases rest with
    | nil => simp [adjacencyLinks] at hl
    | cons b rest' =>
      simp only [adjacencyLinks] at hl
      have hab : a.seq < b.seq :=
        (List.pairwise_cons.1 hp).1 b (List.mem_cons_self b rest')
      have hp' := (List.pairwise_cons.1 hp).2
      rcases List.mem_append.1 hl with h12 | h3
      · rcases List.mem_append.1 h12 with h1 | h2
        · by_cases hc : a.type = EventType.thought ∧ b.type = EventType.tool_call
          · rw [if_pos hc] at h1
            simp only [List.mem_singleton] at h1
            subst h1
            exact Nat.le_of_lt hab
          · rw [if_neg hc] at h1; simp at h1
        · by_cases hc : a.type = EventType.tool_result ∧ b.role = Role.assistant ∧
              (b.type = EventType.thought ∨ b.type = EventType.message)
          · rw [if_pos hc] at h2
            simp only [List.mem_singleton] at h2
            subst h2
            exact Nat.le_of_lt hab
          · rw [if_neg hc] at h2; simp at h2
      · exact ih hp' link h3

/-- C2 (amended): every adjacency edge points from an event to its immediate
successor, so under strictly increasing seqs `from.seq ≤ to.seq`; id-based
edges satisfy the same bound only under the extra hypothesis `noForwardRef`
(no `tool_result` resolves to a most-recent `tool_call` occurring later in
the list).  Without that hypothesis an edge can point backward
(`buildCausalityChain_backward_edge`). -/
theorem buildCausalityChain_no_backward (events : List ParsedEvent)
    (hmono : events.Pairwise fun a b => a.seq < b.seq)
    (href : noForwardRef events = true) :
    ∀ link ∈ buildCausalityChain events, link.fromSeq ≤ link.toSeq := by
  intro link hl
  unfold buildCausalityChain at hl
  rcases List.mem_append.1 hl with h1 | h2
  · exact idLinks_bound (toolCallIdMap events) events (noForwardRef_spec events href) link h1
  · exact adjacencyLinks_bound events hmono link h2

/-- A `tool_call` that precedes its `tool_result` (the well-formed order). -/
def evCallW : ParsedEvent :=
  { seq := 1, role := Role.assistant, type := EventType.tool_call,
    toolCallId := some "w", text := "c" }

/-- The `tool_result` following `evCallW`. -/
def evResW : ParsedEvent :=
  { seq := 2, role := Role.tool, type := EventType.tool_result,
    toolCallId := some "w", text := "r" }

theorem buildCausalityChain_no_backward_witness :
    ({ fromSeq := 1, fromType := EventType.tool_call,
       toSeq := 2, toType := EventType.tool_result } : ChainLink).fromSeq ≤
      ({ fromSeq := 1, fromType := EventType.tool_call,
         toSeq := 2, toType := EventType.tool_result } : ChainLink).toSeq :=
  buildCausalityChain_no_backward [evCallW, evResW]
    (by simp [List.pairwise_cons, evCallW, evResW]) rfl _
    (by rw [show buildCausalityChain [evCallW, evResW] =
          [{ fromSeq := 1, fromType := EventType.tool_call,
             toSeq := 2, toType := EventType.tool_result }] from rfl]
        exact List.mem_singleton_self _)

/-! ### Line classification inversion lemmas (C10) -/

theorem isTimeShape_ne_empty (line : String) (h : isTimeShape line = true) : line ≠ "" := by
  intro hc
  subst hc
  exact absurd h (by decide)

theorem modelCheckAt_time (s : List Char) (j : Nat) (t : String)
    (h : modelCheckAt s j = some t) : isTimeShape t = true := by
  unfold modelCheckAt at h
  dsimp only at h
  split at h
  · split at h
    · rename_i hcond
      cases Option.some.inj h
      simp only [Bool.and_eq_true] at hcond
      exact hcond.1
    · exact Option.noConfusion h
  · exact Option.noConfusion h

theorem modelMatch_time (line : String) (m t : String)
    (h : modelMatch line = some (m, t)) : isTimeShape t = true := by
  unfold modelMatch at h
  dsimp only at h
  split at h
  · split at h
    · exact Option.noConfusion h
    · split at h
      · exact Option.noConfusion h
      · split at h
        · exact Option.noConfusion h
        · rename_i t0 hchk
          cases Option.some.inj h
          exact modelCheckAt_time _ _ _ hchk
  · exact Option.noConfusion h

theorem tailCapture_ne_empty (pre line : String) (v : String)
    (h : tailCapture pre line = some v) : v ≠ "" := by
  unfold tailCapture at h
  dsimp only at h
  split at h
  · split at h
    · exact Option.noConfusion h
    · split at h
      · split at h
        · rename_i c hc
          cases Option.some.inj h
          intro hcon
          exact List.noConfusion (congrArg String.data hcon)
        · exact Option.noConfusion h
      · rename_i ht
        cases Option.some.inj h
        intro hcon
        have hdata := congrArg String.data hcon
        simp only at hdata
        rw [List.isEmpty_iff] at ht
        exact ht hdata
  · exact Option.noConfusion h

theorem classify_timeMeta (line : String) (h : classify line = LineKind.timeMeta) :
    isTimeShape line = true := by
  unfold classify at h
  split_ifs at h
  · assumption
  · repeat' split at h
    all_goals exact LineKind.noConfusion h

theorem classify_modelMeta (line : String) (m t : String)
    (h : classify line = LineKind.modelMeta m t) : modelMatch line = some (m, t) := by
  unfold classify at h
  split_ifs at h
  repeat' split at h
  all_goals first
  | exact LineKind.noConfusion h
  | (rename_i hmm
     obtain ⟨h1, h2⟩ := LineKind.modelMeta.inj h
     rw [hmm, h1, h2])

theorem classify_idMeta (line : String) (v : String)
    (h : classify line = LineKind.idMeta v) : tailCapture "ID:" line = some v := by
  unfold classify at h
  split_ifs at h
  repeat' split at h
  all_goals first
  | exact LineKind.noConfusion h
  | (rename_i hmm
     rw [LineKind.idMeta.inj h] at hmm
     exact hmm)

theorem classify_toolMeta (line : String) (v : String)
    (h : classify line = LineKind.toolMeta v) : tailCapture "Tool:" line = some v := by
  unfold classify at h
  split_ifs at h
  repeat' split at h
  all_goals first
  | exact LineKind.noConfusion h
  | (rename_i hmm
     rw [LineKind.toolMeta.inj h] at hmm
     exact hmm)

theorem flush_none {st : PState} (h : st.current = none) : flush st = st := by
  unfold flush
  rw [h]

/-- The event that `start` opens from a state with no current event: a fresh
event carrying the truthy pending fields. -/
def startedEvent (st : PState) (role : Role) (type : EventType) : ParsedEvent :=
  { seq := st.seq + 1, role := role, type := type,
    time := if st.pending.time ≠ "" then some st.pending.time else none,
    model := if st.pending.model ≠ "" then some st.pending.model else none,
    toolName := if st.pending.toolName ≠ "" then some st.pending.toolName else none,
    toolCallId := if st.pending.toolId ≠ "" then some st.pending.toolId else none,
    text := "", data := none }

theorem start_no_current (st : PState) (h : st.current = none) (role : Role)
    (type : EventType) :
    start st role type =
      { st with seq := st.seq + 1, current := some (startedEvent st role type) } := by
  unfold start startedEvent
  rw [flush_none h]
  dsimp only
  split_ifs <;> rfl

theorem isDivider_eq (line : String) (h : isDivider line = true) :
    line = "U" ∨ line = "A" ∨ line = "T" := by
  unfold isDivider at h
  simp only [Bool.or_eq_true, beq_iff_eq, or_assoc] at h
  exact h

/-- C10: when a divider is met with no open event, the whole state — the
pending buffer included — is left unchanged; the next header then copies the
truthy pending fields onto the event it opens (without clearing `pending`);
and a line can only turn a nonempty `pending` into the empty one when an
event was open (i.e. only a flush that finds an open event clears it). -/
theorem processLine_pending_carry (jp : String → Option Json) (st : PState) (line : String) :
    (st.current = none → isDivider line = true → processLine jp st line = st) ∧
    (∀ role type, st.current = none → classify line = LineKind.header role type →
      processLine jp st line =
        { st with seq := st.seq + 1, current := some (startedEvent st role type) }) ∧
    ((processLine jp st line).pending = emptyPending →
      st.pending = emptyPending ∨ st.current.isSome = true) := by
  refine ⟨?_, ?_, ?_⟩
  · intro hc hd
    rcases isDivider_eq line hd with h | h | h
    · subst h
      unfold processLine
      rw [show classify "U" = LineKind.divider from rfl]
      exact flush_none hc
    · subst h
      unfold processLine
      rw [show classify "A" = LineKind.divider from rfl]
      exact flush_none hc
    · subst h
      unfold processLine
      rw [show classify "T" = LineKind.divider from rfl]
      exact flush_none hc
  · intro role type hc hk
    unfold processLine
    rw [hk]
    exact start_no_current st hc role type
  · intro hpend
    by_cases hc : st.current.isSome = true
    · exact Or.inr hc
    · have hcn : st.current = none := by
        cases hcur : st.current
        · rfl
        · rw [hcur] at hc; exact absurd rfl hc
      left
      revert hpend
      unfold processLine
      cases hk : classify line with
      | blank => dsimp only; rw [hcn]; exact id
      | divider => dsimp only; rw [flush_none hcn]; exact id
      | header role type =>
        dsimp only
        rw [start_no_current st hcn role type]
        exact id
      | timeMeta =>
        dsimp only
        rw [hcn]
        dsimp only
        intro hp
        exact absurd (congrArg Pending.time hp)
          (isTimeShape_ne_empty line (classify_timeMeta line hk))
      | modelMeta m t =>
        dsimp only
        rw [hcn]
        dsimp only
        intro hp
        exact absurd (congrArg Pending.time hp)
          (isTimeShape_ne_empty t (modelMatch_time line m t (classify_modelMeta line m t hk)))
      | idMeta v =>
        dsimp only
        rw [hcn]
        dsimp only
        intro hp
        exact absurd (congrArg Pending.toolId hp)
          (tailCapture_ne_empty "ID:" line v (classify_idMeta line v hk))
      | toolMeta v =>
        dsimp only
        rw [hcn]
        dsimp only
        intro hp
        exact absurd (congrArg Pending.toolName hp)
          (tailCapture_ne_empty "Tool:" line v (classify_toolMeta line v hk))
      | callBullet name args => dsimp only; rw [hcn]; exact id
      | content =>
        dsimp only
        unfold appendSt
        rw [hcn]
        exact id

/-- A closed state with a pending time, no open event. -/
def pstPendingTime : PState :=
  { current := none, seq := 0,
    pending := { time := "10:00:00", model := "", toolName := "", toolId := "" },
    events := [] }

theorem processLine_pending_carry_witness :
    processLine jpNone pstPendingTime "U" = pstPendingTime ∧
    processLine jpNone pstPendingTime "USER" =
      { pstPendingTime with
        seq := 1
        current := some (startedEvent pstPendingTime Role.user EventType.message) } ∧
    (initPState.pending = emptyPending ∨ initPState.current.isSome = true) :=
  ⟨(processLine_pending_carry jpNone pstPendingTime "U").1 rfl rfl,
   (processLine_pending_carry jpNone pstPendingTime "USER").2.1 Role.user EventType.message
     rfl rfl,
   (processLine_pending_carry jpNone initPState "z").2.2 rfl⟩

/-! ### Claim theorems: error handling (C8) -/

/-- A platform whose `JSON.parse` accepts everything as the JSON value
`null` (the behavior of real `JSON.parse` at the input string `"null"`). -/
def pfNull : JsPlatform :=
  { jsonParse := fun _ => some Json.null, dateToIso := fun _ => "",
    nowIso := "", stringify := fun _ => "" }

/-- A platform whose `JSON.parse` always throws. -/
def pfFail : JsPlatform :=
  { jsonParse := fun _ => none, dateToIso := fun _ => "",
    nowIso := "", stringify := fun _ => "" }

/-- C8 counterexample.  `"null"` is syntactically valid JSON (`JSON.parse`
yields the value `null`), yet `parseJsonLogRaw` still throws: `parseJsonLog`
reads `.messages` off the parsed value, and property access on `null` raises
a `TypeError`.  So invalid JSON is not the only input on which the JSON
entry path throws. -/
theorem parseJsonLogRaw_throws_on_valid_json :
    pfNull.jsonParse "null" = some Json.null ∧
    parseJsonLogRaw pfNull "null" =
      Except.error "TypeError: cannot read messages of null" :=
  ⟨rfl, rfl⟩

/-- C8 (amended): the text pipeline is total by construction and every
tool-call record keeps `args_raw` while `args` is exactly the best-effort
parse of it (`none` when both attempts fail); and `parseJsonLogRaw` throws
`"Invalid JSON format"` whenever the JSON text fails to parse — but this is
not the only way it can throw (see the counterexample). -/
theorem parsePipeline_error_contract :
    (∀ (jp : String → Option Json) (rawInput : String),
      ∀ e ∈ (parseVictoriaLog jp rawInput).events, ∀ cs,
        e.data = some (EventData.calls cs) →
        ∀ c ∈ cs, c.args = tryParseJson jp c.args_raw) ∧
    (∀ (pf : JsPlatform) (input : String), pf.jsonParse input = none →
      parseJsonLogRaw pf input = Except.error "Invalid JSON format") := by
  constructor
  · intro jp rawInput e he cs hcs c hc
    exact (parseInv_run jp rawInput).callsEv e he cs hcs c hc
  · intro pf input h
    unfold parseJsonLogRaw
    rw [h]

/-- The single event parsed from `"ASSISTANT [TOOL_CALL]\n- search(1)"`. -/
def evToolCallParsed : ParsedEvent :=
  { seq := 1, role := Role.assistant, type := EventType.tool_call,
    text := "- search(1)",
    data := some (EventData.calls [{ tool := "search", args_raw := "1", args := none }]) }

theorem parsePipeline_error_contract_witness :
    ({ tool := "search", args_raw := "1", args := none } : CallRec).args =
      tryParseJson jpNone
        ({ tool := "search", args_raw := "1", args := none } : CallRec).args_raw ∧
    parseJsonLogRaw pfFail "x" = Except.error "Invalid JSON format" :=
  ⟨parsePipeline_error_contract.1 jpNone "ASSISTANT [TOOL_CALL]\n- search(1)"
      evToolCallParsed
      (by rw [show (parseVictoriaLog jpNone "ASSISTANT [TOOL_CALL]\n- search(1)").events =
            [evToolCallParsed] from rfl]
          exact List.mem_singleton_self _)
      [{ tool := "search", args_raw := "1", args := none }] rfl
      { tool := "search", args_raw := "1", args := none } (List.mem_singleton_self _),
   parsePipeline_error_contract.2 pfFail "x" rfl⟩

/-! ### Enrichment idempotence (C5)

The second enrichment pass searches the already-enriched list, but enrichment
preserves every field the search reads (`type`, `toolName`, and the
`toolCallId` of `tool_call` events), so the search resolves identically and
no second change is ever made. -/

/-- The fields of an event that `findMatchingCall` and the inference guard
read are preserved by enrichment. -/
def EnrichCompat (a b : ParsedEvent) : Prop :=
  b.type = a.type ∧ b.toolName = a.toolName ∧
    (a.type = EventType.tool_call → b.toolCallId = a.toolCallId)

theorem enrichEvent_compat (orig : List ParsedEvent) (i : Nat) (e : ParsedEvent) :
    EnrichCompat e (enrichEvent orig i e) := by
  obtain ⟨_, _, mt, _, _, mtn, _, _⟩ := inferToolCallId_fields orig i e
  obtain ⟨_, _, it, _, _, itn, itc, _⟩ := initToolCallData_fields (inferToolCallId orig i e)
  refine ⟨?_, ?_, ?_⟩
  · show (initToolCallData (inferToolCallId orig i e)).type = e.type
    rw [it, mt]
  · show (initToolCallData (inferToolCallId orig i e)).toolName = e.toolName
    rw [itn, mtn]
  · intro htc
    show (initToolCallData (inferToolCallId orig i e)).toolCallId = e.toolCallId
    rw [itc, inferToolCallId_of_not_result orig i e (fun hr => by
      rw [htc] at hr
      exact EventType.noConfusion hr)]

theorem forall₂_enrich (orig : List ParsedEvent) :
    ∀ (l : List ParsedEvent) (n : Nat),
      List.Forall₂ EnrichCompat l (mapWithIdxFrom (enrichEvent orig) n l) := by
  intro l
  induction l with
  | nil => intro n; exact List.Forall₂.nil
  | cons e es ih => intro n; exact List.Forall₂.cons (enrichEvent_compat orig n e) (ih (n + 1))

theorem find?_map_toolCallId {l₁ l₂ : List ParsedEvent}
    (h : List.Forall₂ EnrichCompat l₁ l₂) (tn : Option String) :
    (l₂.find? (fun c => decide (c.type = EventType.tool_call ∧ c.toolName = tn))).map
        (fun c => c.toolCallId) =
      (l₁.find? (fun c => decide (c.type = EventType.tool_call ∧ c.toolName = tn))).map
        (fun c => c.toolCallId) := by
  induction h with
  | nil => rfl
  | @cons a b l₁' l₂' hab htail ih =>
    have hp : decide (b.type = EventType.tool_call ∧ b.toolName = tn) =
        decide (a.type = EventType.tool_call ∧ a.toolName = tn) :=
      decide_eq_decide.2 (by rw [hab.1, hab.2.1])
    simp only [List.find?_cons]
    by_cases hpa : decide (a.type = EventType.tool_call ∧ a.toolName = tn) = true
    · rw [hp, hpa]
      have hat := (of_decide_eq_true hpa).1
      dsimp only
      exact congrArg some (hab.2.2 hat)
    · have hpaf : decide (a.type = EventType.tool_call ∧ a.toolName = tn) = false := by
        simpa using hpa
      rw [hp, hpaf]
      exact ih

theorem findMatchingCall_idem (l : List ParsedEvent) (i : Nat) (tn : Option String) :
    (findMatchingCall (mapWithIdx (enrichEvent l) l) i tn).map (fun c => c.toolCallId) =
      (findMatchingCall l i tn).map (fun c => c.toolCallId) := by
  unfold findMatchingCall
  exact find?_map_toolCallId
    (List.rel_reverse (List.forall₂_take i (forall₂_enrich l l 0))) tn

theorem inferToolCallId_no_assign (orig : List ParsedEvent) (i : Nat) (e : ParsedEvent)
    (hfind : (findMatchingCall orig i e.toolName).map (fun c => optTruthy c.toolCallId) ≠
      some true) :
    inferToolCallId orig i e = e := by
  unfold inferToolCallId
  split
  · cases hf : findMatchingCall orig i e.toolName with
    | none => rfl
    | some mc =>
      have hmc : optTruthy mc.toolCallId ≠ true := fun htr => hfind (by rw [hf]; simp [htr])
      dsimp only
      rw [if_neg hmc]
  · rfl

theorem enrichEvent_tool_call_data_truthy (orig : List ParsedEvent) (i : Nat)
    (e : ParsedEvent) (h : (enrichEvent orig i e).type = EventType.tool_call) :
    jsTruthyData (enrichEvent orig i e).data = true := by
  have hmt : (inferToolCallId orig i e).type = EventType.tool_call := by
    have hit := (initToolCallData_fields (inferToolCallId orig i e)).2.2.1
    rw [← hit]
    exact h
  show jsTruthyData (initToolCallData (inferToolCallId orig i e)).data = true
  unfold initToolCallData
  split
  · rfl
  · rename_i hng
    cases hd : jsTruthyData (inferToolCallId orig i e).data with
    | false => exact absurd ⟨hd, hmt⟩ hng
    | true => rfl

theorem enrichEvent_twice (l : List ParsedEvent) (i : Nat) (e : ParsedEvent) :
    enrichEvent (mapWithIdx (enrichEvent l) l) i (enrichEvent l i e) = enrichEvent l i e := by
  have hini : ∀ x : ParsedEvent, x.type = EventType.tool_result → initToolCallData x = x :=
    fun x hx => initToolCallData_keep x (fun hcc => by
      rw [hx] at hcc
      exact EventType.noConfusion hcc.2)
  by_cases hcond : (enrichEvent l i e).type = EventType.tool_result ∧
      optTruthy (enrichEvent l i e).toolCallId = false ∧
      optTruthy (enrichEvent l i e).toolName = true
  case pos =>
    have het : e.type = EventType.tool_result := by
      rw [← (enrichEvent_compat l i e).1]
      exact hcond.1
    have hinfT : (inferToolCallId l i e).type = EventType.tool_result := by
      rw [(inferToolCallId_fields l i e).2.2.1]
      exact het
    have he1i : enrichEvent l i e = inferToolCallId l i e := hini _ hinfT
    have hef : optTruthy e.toolCallId = false := by
      by_cases hf : optTruthy e.toolCallId = true
      · exfalso
        have hinfe : inferToolCallId l i e = e := by
          unfold inferToolCallId
          rw [if_neg (fun hcc => by
            rw [hf] at hcc
            exact Bool.noConfusion hcc.2.1)]
        have htr : optTruthy (enrichEvent l i e).toolCallId = true := by
          rw [he1i, hinfe]
          exact hf
        rw [hcond.2.1] at htr
        exact Bool.noConfusion htr
      · simpa using hf
    have hetn : optTruthy e.toolName = true := by
      rw [← (enrichEvent_compat l i e).2.1]
      exact hcond.2.2
    have hecondE : e.type = EventType.tool_result ∧ optTruthy e.toolCallId = false ∧
        optTruthy e.toolName = true := ⟨het, hef, hetn⟩
    have hfl : (findMatchingCall l i e.toolName).map (fun c => optTruthy c.toolCallId) ≠
        some true := by
      intro hcontra
      cases hfc : findMatchingCall l i e.toolName with
      | none => rw [hfc] at hcontra; exact Option.noConfusion hcontra
      | some mc =>
        rw [hfc] at hcontra
        simp only [Option.map_some'] at hcontra
        have htr : optTruthy mc.toolCallId = true := Option.some.inj hcontra
        have hassign : inferToolCallId l i e = { e with toolCallId := mc.toolCallId } := by
          unfold inferToolCallId
          rw [if_pos hecondE, hfc]
          dsimp only
          rw [if_pos htr]
        have htr2 : optTruthy (enrichEvent l i e).toolCallId = true := by
          rw [he1i, hassign]
          exact htr
        rw [hcond.2.1] at htr2
        exact Bool.noConfusion htr2
    have he1e : enrichEvent l i e = e := by
      rw [he1i]
      exact inferToolCallId_no_assign l i e hfl
    have hfl' : (findMatchingCall (mapWithIdx (enrichEvent l) l) i e.toolName).map
        (fun c => optTruthy c.toolCallId) ≠ some true := by
      intro hcontra
      apply hfl
      have heq : (findMatchingCall l i e.toolName).map (fun c => optTruthy c.toolCallId) =
          (findMatchingCall (mapWithIdx (enrichEvent l) l) i e.toolName).map
            (fun c => optTruthy c.toolCallId) := by
        calc (findMatchingCall l i e.toolName).map (fun c => optTruthy c.toolCallId)
            = ((findMatchingCall l i e.toolName).map (fun c => c.toolCallId)).map optTruthy := by
              rw [Option.map_map]; rfl
          _ = ((findMatchingCall (mapWithIdx (enrichEvent l) l) i e.toolName).map
                (fun c => c.toolCallId)).map optTruthy := by
              rw [findMatchingCall_idem]
          _ = (findMatchingCall (mapWithIdx (enrichEvent l) l) i e.toolName).map
                (fun c => optTruthy c.toolCallId) := by
              rw [Option.map_map]; rfl
      exact heq.trans hcontra
    show enrichEvent (mapWithIdx (enrichEvent l) l) i (enrichEvent l i e) = enrichEvent l i e
    rw [he1e]
    show initToolCallData (inferToolCallId (mapWithIdx (enrichEvent l) l) i e) = e
    rw [inferToolCallId_no_assign (mapWithIdx (enrichEvent l) l) i e hfl']
    exact hini e het
  case neg =>
    have hinf2 : inferToolCallId (mapWithIdx (enrichEvent l) l) i (enrichEvent l i e) =
        enrichEvent l i e := by
      unfold inferToolCallId
      rw [if_neg hcond]
    show initToolCallData
        (inferToolCallId (mapWithIdx (enrichEvent l) l) i (enrichEvent l i e)) =
      enrichEvent l i e
    rw [hinf2]
    by_cases htc : (enrichEvent l i e).type = EventType.tool_call
    · exact initToolCallData_keep _ (fun hcc => by
        rw [enrichEvent_tool_call_data_truthy l i e htc] at hcc
        exact Bool.noConfusion hcc.1)
    · exact initToolCallData_keep _ (fun hcc => htc hcc.2)

theorem mapWithIdxFrom_id (g : Nat → ParsedEvent → ParsedEvent) :
    ∀ (l : List ParsedEvent) (n : Nat),
      (∀ i e, l[i]? = some e → g (n + i) e = e) → mapWithIdxFrom g n l = l := by
  intro l
  induction l with
  | nil => intro n _; rfl
  | cons e es ih =>
    intro n h
    show g n e :: mapWithIdxFrom g (n + 1) es = e :: es
    rw [show g n e = e from by simpa using h 0 e (by simp),
      ih (n + 1) (fun i e2 he2 => by
        have h2 := h (i + 1) e2 (by simpa using he2)
        rw [show n + (i + 1) = n + 1 + i from by omega] at h2
        exact h2)]

/-- C5: enrichment is idempotent — `enrich (enrich run) = enrich run`. -/
theorem enrichParsedRun_idem (run : ParsedRun) :
    enrichParsedRun (enrichParsedRun run) = enrichParsedRun run := by
  have hev : mapWithIdx (enrichEvent (mapWithIdx (enrichEvent run.events) run.events))
      (mapWithIdx (enrichEvent run.events) run.events) =
      mapWithIdx (enrichEvent run.events) run.events := by
    unfold mapWithIdx
    apply mapWithIdxFrom_id
    intro i e2 he2
    have hq : (mapWithIdxFrom (enrichEvent run.events) 0 run.events)[i]? =
        (run.events[i]?).map (fun e => enrichEvent run.events (0 + i) e) :=
      getElem?_mapWithIdxFrom (enrichEvent run.events) run.events 0 i
    rw [he2] at hq
    cases hl0 : run.events[i]? with
    | none => rw [hl0] at hq; exact Option.noConfusion hq
    | some e0 =>
      rw [hl0] at hq
      simp only [Option.map_some'] at hq
      have he2v : e2 = enrichEvent run.events i e0 := by
        have := Option.some.inj hq
        rw [Nat.zero_add] at this
        exact this
      rw [Nat.zero_add, he2v]
      exact enrichEvent_twice run.events i e0
  show ({ enrichParsedRun run with
    events := mapWithIdx (enrichEvent (enrichParsedRun run).events)
      (enrichParsedRun run).events } : ParsedRun) = enrichParsedRun run
  have hevents : (enrichParsedRun run).events = mapWithIdx (enrichEvent run.events) run.events :=
    rfl
  rw [hevents, hev]
  rfl
